import Mathlib

set_option maxRecDepth 100000

/-!
# Verification of the igo message codec (messages.go)

A shallow embedding of the wire-message codec of the igo kernel:
`WireMsgToComposedMsg` (decode), `ComposedMsg.ToWireMsg` (encode) and
`NewMsg`, together with byte-level models of the Go standard library
routines they call: `crypto/sha256`, `crypto/hmac`, `encoding/hex` and
the fragment of `encoding/json` the codec exercises.

Bytes are modeled as `Nat` (values < 256 where it matters), frames as
`List Nat`, multipart messages as `List (List Nat)`.  Go strings are
byte slices and are likewise modeled as `List Nat`; the validity
predicates below restrict quantified strings to ASCII (< 128), since
multi-byte UTF-8 framing is orthogonal to the protocol logic.
-/

/-! ## Bytes and 32-bit words -/

/-- Truncate to a 32-bit word, as Go `uint32` arithmetic does. -/
def w32 (n : Nat) : Nat := n % 4294967296

/-- Right rotation of a 32-bit word. -/
def rotr (x n : Nat) : Nat := w32 ((x >>> n) ||| (x <<< (32 - n)))

/-- Big-endian bytes of a 32-bit word. -/
def wordToBytes (w : Nat) : List Nat :=
  [w >>> 24 % 256, w >>> 16 % 256, w >>> 8 % 256, w % 256]

/-- Big-endian 8-byte encoding of a 64-bit length, as SHA-256 padding uses. -/
def len64Bytes (n : Nat) : List Nat :=
  [n >>> 56 % 256, n >>> 48 % 256, n >>> 40 % 256, n >>> 32 % 256,
   n >>> 24 % 256, n >>> 16 % 256, n >>> 8 % 256, n % 256]

/-! ## SHA-256 (crypto/sha256)

The FIPS 180-4 compression function over `Nat` words reduced mod 2^32,
exactly the `uint32` arithmetic of Go's `crypto/sha256`. -/

def shaK : List Nat :=
  [1116352408, 1899447441, 3049323471, 3921009573, 961987163, 1508970993,
   2453635748, 2870763221, 3624381080, 310598401, 607225278, 1426881987,
   1925078388, 2162078206, 2614888103, 3248222580, 3835390401, 4022224774,
   264347078, 604807628, 770255983, 1249150122, 1555081692, 1996064986,
   2554220882, 2821834349, 2952996808, 3210313671, 3336571891, 3584528711,
   113926993, 338241895, 666307205, 773529912, 1294757372, 1396182291,
   1695183700, 1986661051, 2177026350, 2456956037, 2730485921, 2820302411,
   3259730800, 3345764771, 3516065817, 3600352804, 4094571909, 275423344,
   430227734, 506948616, 659060556, 883997877, 958139571, 1322822218,
   1537002063, 1747873779, 1955562222, 2024104815, 2227730452, 2361852424,
   2428436474, 2756734187, 3204031479, 3329325298]

def shaH0 : List Nat :=
  [1779033703, 3144134277, 1013904242, 2773480762, 1359893119, 2600822924,
   528734635, 1541459225]

def bsig0 (x : Nat) : Nat := rotr x 2 ^^^ rotr x 13 ^^^ rotr x 22
def bsig1 (x : Nat) : Nat := rotr x 6 ^^^ rotr x 11 ^^^ rotr x 25
def ssig0 (x : Nat) : Nat := rotr x 7 ^^^ rotr x 18 ^^^ (x >>> 3)
def ssig1 (x : Nat) : Nat := rotr x 17 ^^^ rotr x 19 ^^^ (x >>> 10)
def chF (e f g : Nat) : Nat := (e &&& f) ^^^ ((e ^^^ 4294967295) &&& g)
def majF (a b c : Nat) : Nat := (a &&& b) ^^^ (a &&& c) ^^^ (b &&& c)

/-- SHA-256 padding: append 0x80, zeros to 56 mod 64, then the bit length. -/
def shaPad (m : List Nat) : List Nat :=
  m ++ 128 :: List.replicate ((119 - m.length % 64) % 64) 0
    ++ len64Bytes (8 * m.length)

/-- Split a byte list into 64-byte blocks (fuel-driven; call with enough fuel). -/
def toBlocks : Nat → List Nat → List (List Nat)
  | 0, _ => []
  | _ + 1, [] => []
  | f + 1, l => l.take 64 :: toBlocks f (l.drop 64)

/-- Big-endian 4-byte groups to 32-bit words. -/
def bytesToWords : List Nat → List Nat
  | a :: b :: c :: d :: t =>
      w32 (a <<< 24 + b <<< 16 + c <<< 8 + d) :: bytesToWords t
  | _ => []

/-- Extend the 16 message-schedule words to 64. -/
def extendW (w : List Nat) : List Nat :=
  (List.range 48).foldl
    (fun acc _ =>
      acc ++ [w32 (ssig1 (acc.getD (acc.length - 2) 0) +
                   acc.getD (acc.length - 7) 0 +
                   ssig0 (acc.getD (acc.length - 15) 0) +
                   acc.getD (acc.length - 16) 0)]) w

/-- One round of the SHA-256 compression function. -/
def shaRound (hs : List Nat) (kw : Nat × Nat) : List Nat :=
  let a := hs.getD 0 0; let b := hs.getD 1 0; let c := hs.getD 2 0
  let d := hs.getD 3 0; let e := hs.getD 4 0; let f := hs.getD 5 0
  let g := hs.getD 6 0; let h := hs.getD 7 0
  let t1 := w32 (h + bsig1 e + chF e f g + kw.1 + kw.2)
  let t2 := w32 (bsig0 a + majF a b c)
  [w32 (t1 + t2), a, b, c, w32 (d + t1), e, f, g]

/-- Process one 64-byte block, updating the running hash state. -/
def shaBlock (state : List Nat) (block : List Nat) : List Nat :=
  let ws := extendW (bytesToWords block)
  let hs := (shaK.zip ws).foldl shaRound state
  List.zipWith (fun x y => w32 (x + y)) state hs

/-- Concatenate the big-endian bytes of a list of words. -/
def wordsToBytes : List Nat → List Nat
  | [] => []
  | w :: t => wordToBytes w ++ wordsToBytes t

/-- SHA-256 of a byte list, as `crypto/sha256` computes it. -/
def sha256 (m : List Nat) : List Nat :=
  let p := shaPad m
  wordsToBytes ((toBlocks (p.length) p).foldl shaBlock shaH0)

/-! ## HMAC (crypto/hmac)

`hmac.New(sha256.New, key)` followed by a sequence of `Write`s and
`Sum(nil)`.  Writing the parts one by one into the streaming MAC equals
hashing their concatenation, so the model takes the concatenated bytes. -/

/-- HMAC-SHA256 with block size 64, as `crypto/hmac` computes it. -/
def hmacSha256 (key msg : List Nat) : List Nat :=
  let k0 := if 64 < key.length then sha256 key else key
  let k := k0 ++ List.replicate (64 - k0.length) 0
  sha256 (k.map (fun b => b ^^^ 92) ++ sha256 (k.map (fun b => b ^^^ 54) ++ msg))

/-! ## Hexadecimal (encoding/hex) -/

/-- Lowercase hex digit of a value < 16, as `encoding/hex` emits. -/
def hexChar (n : Nat) : Nat := if n < 10 then 48 + n else 87 + n

/-- `hex.Encode`: two lowercase digits per byte. -/
def hexEnc : List Nat → List Nat
  | [] => []
  | b :: t => hexChar (b / 16) :: hexChar (b % 16) :: hexEnc t

/-- Value of a hex digit byte, if valid (`fromHexChar` in encoding/hex). -/
def fromHexChar (c : Nat) : Option Nat :=
  if 48 ≤ c ∧ c ≤ 57 then some (c - 48)
  else if 97 ≤ c ∧ c ≤ 102 then some (c - 87)
  else if 65 ≤ c ∧ c ≤ 70 then some (c - 55)
  else none

/-- The pairs `hex.Decode` successfully writes before stopping at the first
invalid digit (or at an odd tail). -/
def hexPairs : List Nat → List Nat
  | a :: b :: t =>
      match fromHexChar a, fromHexChar b with
      | some x, some y => (16 * x + y) :: hexPairs t
      | _, _ => []
  | _ => []

/-- The Go call sequence
`signature := make([]byte, hex.DecodedLen(len(src))); hex.Decode(signature, src)`
with the returned error discarded: the decoded prefix followed by the
zero bytes of the untouched remainder of the freshly made buffer. -/
def hexDecodeBuf (src : List Nat) : List Nat :=
  let d := hexPairs src
  d ++ List.replicate (src.length / 2 - d.length) 0

/-- Whether every byte is a valid hex digit and the length is even
(i.e. `hex.Decode` returns no error). -/
def hexValid (src : List Nat) : Bool :=
  src.length % 2 = 0 && src.all (fun c => (fromHexChar c).isSome)

/-! ## JSON values

The universe of values the codec moves through `encoding/json`:
`map[string]interface{}` / `interface{}` states are JSON trees.  Strings
are Go byte strings (`List Nat`); numbers are modeled as integers (the
`float64` values Go produces for them that are exactly representable);
a Go map is modeled by the key-sorted association list of its entries
(its canonical form — `json.Marshal` emits map keys in sorted order). -/

mutual
inductive Json where
  | null : Json
  | bool : Bool → Json
  | num : Int → Json
  | str : List Nat → Json
  | arr : JArr → Json
  | obj : JObj → Json
deriving DecidableEq

inductive JArr where
  | nil : JArr
  | cons : Json → JArr → JArr
deriving DecidableEq

inductive JObj where
  | nil : JObj
  | cons : List Nat → Json → JObj → JObj
deriving DecidableEq
end

/-! ## json.Marshal -/

/-- Decimal digit bytes of a natural number, most significant first
(fuel-driven; `digitsOf` supplies enough fuel). -/
def digitsAux : Nat → Nat → List Nat
  | 0, _ => []
  | f + 1, n => if n < 10 then [48 + n] else digitsAux f (n / 10) ++ [48 + n % 10]

def digitsOf (n : Nat) : List Nat := digitsAux (n + 1) n

/-- `json.Marshal` of an integral number. -/
def marshalInt (n : Int) : List Nat :=
  if n < 0 then 45 :: digitsOf n.natAbs else digitsOf n.toNat

/-- How `json.Marshal` escapes one string byte: quote and backslash,
`\n` `\r` `\t`, `\u00XX` for other control bytes, and the HTML-escaped
`&` `<` `>` (emitted as `&` `<` `>`). -/
def escByte (b : Nat) : List Nat :=
  if b = 34 then [92, 34]
  else if b = 92 then [92, 92]
  else if b = 10 then [92, 110]
  else if b = 13 then [92, 114]
  else if b = 9 then [92, 116]
  else if b < 32 ∨ b = 38 ∨ b = 60 ∨ b = 62 then
    [92, 117, 48, 48, hexChar (b / 16), hexChar (b % 16)]
  else [b]

def escBytes : List Nat → List Nat
  | [] => []
  | b :: t => escByte b ++ escBytes t

/-- `json.Marshal` of a string: quoted, escaped. -/
def marshalStr (s : List Nat) : List Nat := 34 :: escBytes s ++ [34]

mutual
/-- `json.Marshal` of a JSON value. -/
def marshalJson : Json → List Nat
  | .null => [110, 117, 108, 108]
  | .bool true => [116, 114, 117, 101]
  | .bool false => [102, 97, 108, 115, 101]
  | .num n => marshalInt n
  | .str s => marshalStr s
  | .arr a => 91 :: (marshalElems a ++ [93])
  | .obj o => 123 :: (marshalMembers o ++ [125])

/-- Comma-separated marshaled elements of an array. -/
def marshalElems : JArr → List Nat
  | .nil => []
  | .cons h .nil => marshalJson h
  | .cons h (.cons h2 t) => marshalJson h ++ 44 :: marshalElems (.cons h2 t)

/-- Comma-separated `"key":value` members of an object. -/
def marshalMembers : JObj → List Nat
  | .nil => []
  | .cons k v .nil => marshalStr k ++ 58 :: marshalJson v
  | .cons k v (.cons k2 v2 t) =>
      marshalStr k ++ 58 :: marshalJson v ++ 44 :: marshalMembers (.cons k2 v2 t)
end

/-! ## json.Unmarshal (the parsing fragment the codec exercises) -/

def isWs (c : Nat) : Bool := c = 32 || c = 9 || c = 10 || c = 13

def skipWs : List Nat → List Nat
  | [] => []
  | c :: r => if isWs c then skipWs r else c :: r

def isDigit (c : Nat) : Bool := 48 ≤ c && c ≤ 57

/-- Greedily consume decimal digits, accumulating their value. -/
def parseDigitsAux : List Nat → Nat → Nat × List Nat
  | [], acc => (acc, [])
  | c :: r, acc => if isDigit c then parseDigitsAux r (10 * acc + (c - 48)) else (acc, c :: r)

/-- Decoding of a two-character escape (after the backslash). -/
def escDecode (e : Nat) : Option Nat :=
  if e = 34 then some 34
  else if e = 92 then some 92
  else if e = 47 then some 47
  else if e = 98 then some 8
  else if e = 102 then some 12
  else if e = 110 then some 10
  else if e = 114 then some 13
  else if e = 116 then some 9
  else none

/-- UTF-8 bytes of a code point, for decoded `\uXXXX` escapes. -/
def utf8enc (v : Nat) : List Nat :=
  if v < 128 then [v]
  else if v < 2048 then [192 + v / 64, 128 + v % 64]
  else [224 + v / 4096, 128 + v / 64 % 64, 128 + v % 64]

/-- Body of a JSON string after the opening quote: bytes until the
unescaped closing quote, unescaping as Go's scanner does.  Returns the
decoded bytes and the input after the closing quote. -/
def parseStrBody : List Nat → Option (List Nat × List Nat)
  | [] => none
  | c :: r =>
    if c = 34 then some ([], r)
    else if c = 92 then
      match r with
      | [] => none
      | e :: r1 =>
        if e = 117 then
          match r1 with
          | h1 :: h2 :: h3 :: h4 :: r2 =>
            match fromHexChar h1, fromHexChar h2, fromHexChar h3, fromHexChar h4 with
            | some a, some b, some x, some y =>
              match parseStrBody r2 with
              | some (l, r3) => some (utf8enc (4096 * a + 256 * b + 16 * x + y) ++ l, r3)
              | none => none
            | _, _, _, _ => none
          | _ => none
        else
          match escDecode e with
          | some b =>
            match parseStrBody r1 with
            | some (l, r3) => some (b :: l, r3)
            | none => none
          | none => none
    else if c < 32 then none
    else
      match parseStrBody r with
      | some (l, r3) => some (c :: l, r3)
      | none => none

/-- Check that the input starts with the given literal bytes; return the rest. -/
def expectBytes : List Nat → List Nat → Option (List Nat)
  | [], s => some s
  | p :: pt, c :: s => if c = p then expectBytes pt s else none
  | _ :: _, [] => none

mutual
/-- Recursive-descent parse of one JSON value (leading whitespace
allowed), fuel-bounded; `unmarshalJson` supplies sufficient fuel. -/
def parseVal : Nat → List Nat → Option (Json × List Nat)
  | 0, _ => none
  | f + 1, s =>
    match skipWs s with
    | [] => none
    | c :: r =>
      if c = 110 then (expectBytes [117, 108, 108] r).map (fun r2 => (.null, r2))
      else if c = 116 then (expectBytes [114, 117, 101] r).map (fun r2 => (.bool true, r2))
      else if c = 102 then (expectBytes [97, 108, 115, 101] r).map (fun r2 => (.bool false, r2))
      else if c = 34 then
        match parseStrBody r with
        | some (l, r2) => some (.str l, r2)
        | none => none
      else if c = 45 then
        match r with
        | c2 :: r2 =>
          if isDigit c2 then
            let p := parseDigitsAux (c2 :: r2) 0
            some (.num (-(p.1 : Int)), p.2)
          else none
        | [] => none
      else if isDigit c then
        let p := parseDigitsAux (c :: r) 0
        some (.num (p.1 : Int), p.2)
      else if c = 91 then
        match skipWs r with
        | [] => none
        | c2 :: r2 =>
          if c2 = 93 then some (.arr .nil, r2)
          else
            match parseElems f (c2 :: r2) with
            | some (a, r3) => some (.arr a, r3)
            | none => none
      else if c = 123 then
        match skipWs r with
        | [] => none
        | c2 :: r2 =>
          if c2 = 125 then some (.obj .nil, r2)
          else
            match parseMembers f (c2 :: r2) with
            | some (o, r3) => some (.obj o, r3)
            | none => none
      else none

/-- One or more comma-separated array elements, up to the closing bracket. -/
def parseElems : Nat → List Nat → Option (JArr × List Nat)
  | 0, _ => none
  | f + 1, s =>
    match parseVal f s with
    | some (v, r1) =>
      match skipWs r1 with
      | c :: r2 =>
        if c = 44 then
          match parseElems f r2 with
          | some (t, r3) => some (.cons v t, r3)
          | none => none
        else if c = 93 then some (.cons v .nil, r2)
        else none
      | [] => none
    | none => none

/-- One or more comma-separated object members, up to the closing brace. -/
def parseMembers : Nat → List Nat → Option (JObj × List Nat)
  | 0, _ => none
  | f + 1, s =>
    match skipWs s with
    | [] => none
    | c :: r =>
      if c = 34 then
        match parseStrBody r with
        | some (k, r1) =>
          match skipWs r1 with
          | c2 :: r2 =>
            if c2 = 58 then
              match parseVal f r2 with
              | some (v, r3) =>
                match skipWs r3 with
                | c3 :: r4 =>
                  if c3 = 44 then
                    match parseMembers f r4 with
                    | some (t, r5) => some (.cons k v t, r5)
                    | none => none
                  else if c3 = 125 then some (.cons k v .nil, r4)
                  else none
                | [] => none
              | none => none
            else none
          | [] => none
        | none => none
      else none
end

/-- `json.Unmarshal` of a whole frame: one value, then nothing but
whitespace.  The fuel exceeds the size any value serialized in the
input can have. -/
def unmarshalJson (input : List Nat) : Option Json :=
  match parseVal (2 * input.length + 2) input with
  | some (j, rest) => if skipWs rest = [] then some j else none
  | none => none

/-! ## The message structures (messages.go lines 15-28) -/

/-- `MsgHeader`: the four string fields, with their JSON names
`msg_id`, `username`, `session`, `msg_type`. -/
structure MsgHeader where
  Msg_id : List Nat
  Username : List Nat
  Session : List Nat
  Msg_type : List Nat
deriving DecidableEq

/-- The Go zero value of `MsgHeader`: four empty strings. -/
def MsgHeader.zero : MsgHeader := ⟨[], [], [], []⟩

/-- `ComposedMsg`.  `Metadata` is `map[string]interface{}`: `none` is the
nil map, `some o` a map whose canonical (key-sorted) entry list is `o`.
`Content` is `interface{}` holding a JSON value; the nil interface and
JSON null coincide as `Json.null`. -/
structure ComposedMsg where
  Header : MsgHeader
  Parent_header : MsgHeader
  Metadata : Option JObj
  Content : Json
deriving DecidableEq

/-- The Go zero value of `ComposedMsg`. -/
def ComposedMsg.zero : ComposedMsg := ⟨.zero, .zero, none, .null⟩

/-- Byte names of the four header fields. -/
def keyMsgId : List Nat := [109, 115, 103, 95, 105, 100]
def keyUsername : List Nat := [117, 115, 101, 114, 110, 97, 109, 101]
def keySession : List Nat := [115, 101, 115, 115, 105, 111, 110]
def keyMsgType : List Nat := [109, 115, 103, 95, 116, 121, 112, 101]

/-! ## Decoding the four JSON frames (json.Unmarshal targets) -/

/-- Setting one decoded object member into a `MsgHeader` struct: a
member whose name matches a field and whose value is a string sets that
field; any other member is skipped (Go records a type error the caller
discards, leaving the field as it was). -/
def applyHeaderField (h : MsgHeader) (k : List Nat) (v : Json) : MsgHeader :=
  match v with
  | .str s =>
      if k = keyMsgId then { h with Msg_id := s }
      else if k = keyUsername then { h with Username := s }
      else if k = keySession then { h with Session := s }
      else if k = keyMsgType then { h with Msg_type := s }
      else h
  | _ => h

def headerOfFields : MsgHeader → JObj → MsgHeader
  | h, .nil => h
  | h, .cons k v t => headerOfFields (applyHeaderField h k v) t

/-- `json.Unmarshal(frame, &hdr)` with `hdr` zero and the error
discarded: an object sets the matching fields, anything else (parse
error, null, non-object) leaves the zero value. -/
def unmarshalHeaderFrame (frame : List Nat) : MsgHeader :=
  match unmarshalJson frame with
  | some (.obj o) => headerOfFields .zero o
  | _ => .zero

/-- `json.Unmarshal(frame, &m)` for `m map[string]interface{}` nil, error
discarded: an object yields the map, anything else leaves the nil map. -/
def unmarshalMetaFrame (frame : List Nat) : Option JObj :=
  match unmarshalJson frame with
  | some (.obj o) => some o
  | _ => none

/-- `json.Unmarshal(frame, &c)` for `c interface{}` nil, error discarded:
any JSON value replaces it, a parse error leaves nil (= JSON null). -/
def unmarshalContentFrame (frame : List Nat) : Json :=
  (unmarshalJson frame).getD .null

/-- Lines 61-64: the four `json.Unmarshal` calls with discarded errors. -/
def parseFrames (f2 f3 f4 f5 : List Nat) : ComposedMsg :=
  { Header := unmarshalHeaderFrame f2
    Parent_header := unmarshalHeaderFrame f3
    Metadata := unmarshalMetaFrame f4
    Content := unmarshalContentFrame f5 }

/-! ## WireMsgToComposedMsg (messages.go lines 40-66) -/

/-- The delimiter frame, the bytes of the literal token. -/
def delimFrame : List Nat := [60, 73, 68, 83, 124, 77, 83, 71]

/-- The outcome of a decode.  `crash` models a Go runtime panic (index
or slice out of range), which is how the source reacts to a missing
delimiter or a truncated envelope; it is distinct from the one error the
source can return, `InvalidSignatureError`, modeled by `sigError`. -/
inductive DecodeResult where
  | ok : ComposedMsg → List (List Nat) → DecodeResult
  | sigError : DecodeResult
  | crash : DecodeResult
deriving DecidableEq

/-- The identities component of a successful decode. -/
def DecodeResult.idents : DecodeResult → Option (List (List Nat))
  | .ok _ i => some i
  | _ => none

/-- Lines 42-46: scan for the first frame equal to the delimiter; the
frames before it are the identities.  `none` when no frame matches, in
which case the Go loop indexes past the end and panics. -/
def splitAtDelim : List (List Nat) → Option (List (List Nat) × List (List Nat))
  | [] => none
  | f :: t =>
      if f = delimFrame then some ([], f :: t)
      else
        match splitAtDelim t with
        | some (ids, rest) => some (f :: ids, rest)
        | none => none

/-- `WireMsgToComposedMsg`.  After locating the delimiter at index `i`:
with a non-empty key the signature `msgparts[i+1]` is hex-decoded into a
zeroed buffer (decode error discarded) and compared against the
HMAC-SHA256 of `msgparts[i+2:i+6]`; mismatch returns
`InvalidSignatureError`.  Then the four frames are unmarshaled with
errors discarded.  Fewer than five frames after the delimiter makes the
Go code panic (on the `msgparts[i+2:i+6]` slice with a key, on an
`msgparts[i+2..i+5]` index without one), modeled as `crash`. -/
def WireMsgToComposedMsg (msgparts : List (List Nat)) (signkey : List Nat) :
    DecodeResult :=
  match splitAtDelim msgparts with
  | none => .crash
  | some (identities, rest) =>
    match rest with
    | _ :: s :: f2 :: f3 :: f4 :: f5 :: _ =>
        if signkey.length ≠ 0 ∧
            hmacSha256 signkey (f2 ++ f3 ++ f4 ++ f5) ≠ hexDecodeBuf s then
          .sigError
        else
          .ok (parseFrames f2 f3 f4 f5) identities
    | _ => .crash

/-! ## ComposedMsg.ToWireMsg (messages.go lines 70-94) -/

/-- The object value a `MsgHeader` struct serializes as: its four
fields, in declaration order, with their JSON names. -/
def headerJObj (h : MsgHeader) : JObj :=
  .cons keyMsgId (.str h.Msg_id)
    (.cons keyUsername (.str h.Username)
      (.cons keySession (.str h.Session)
        (.cons keyMsgType (.str h.Msg_type) .nil)))

/-- `json.Marshal` of a `MsgHeader` struct. -/
def marshalHeader (h : MsgHeader) : List Nat :=
  marshalJson (.obj (headerJObj h))

/-- `ToWireMsg`: the five frames `[signature, header, parent_header,
metadata, content]`.  A nil metadata map is replaced (in the local
receiver copy) by a fresh empty map before marshaling, so the frame is
the empty object.  With an empty key the signature frame keeps the zero
value of `make([][]byte, 5)`: the empty blob. -/
def ComposedMsg.ToWireMsg (msg : ComposedMsg) (signkey : List Nat) :
    List (List Nat) :=
  let header := marshalHeader msg.Header
  let parent_header := marshalHeader msg.Parent_header
  let metadata := marshalJson (.obj (msg.Metadata.getD .nil))
  let content := marshalJson msg.Content
  let sig :=
    if signkey.length ≠ 0 then
      hexEnc (hmacSha256 signkey (header ++ parent_header ++ metadata ++ content))
    else []
  [sig, header, parent_header, metadata, content]

/-! ## NewMsg (messages.go lines 115-123)

`uuid.NewV4()` draws fresh randomness; the drawn identifier is passed
as the explicit argument `u` (state passing for the random source). -/

/-- `NewMsg`: parent linkage and session/username propagation.  The Go
assignment `msg.Parent_header = parent.Header` copies the struct (it has
only string fields), so the new message's parent header is a full copy. -/
def NewMsg (msg_type : List Nat) (parent : ComposedMsg) (u : List Nat) :
    ComposedMsg :=
  { Header :=
      { Msg_id := u
        Username := parent.Header.Username
        Session := parent.Header.Session
        Msg_type := msg_type }
    Parent_header := parent.Header
    Metadata := none
    Content := .null }

/-! ## Validity (canonical Go states)

Two layers.  `pJson` (parse-safe) carves out the values whose
serialization is byte-exact under the model: ASCII strings (the string
model is byte-per-character; multi-byte UTF-8 is out of scope) and
integer-exact numbers (representable without loss in the `float64` Go
decodes numbers into).  `sortedJson` additionally demands every object
node be in canonical Go-map form: keys strictly ascending (and hence
duplicate-free), the order `json.Marshal` emits map keys in. -/

/-- Byte-wise lexicographic order on strings, as Go sorts map keys. -/
def bytesLt : List Nat → List Nat → Bool
  | [], [] => false
  | [], _ :: _ => true
  | _ :: _, [] => false
  | a :: s, b :: t => if a < b then true else if b < a then false else bytesLt s t

def asciiStr (s : List Nat) : Bool := s.all (fun b => b < 128)

/-- Keys strictly ascending: the canonical entry order of a Go map. -/
def keysSorted : JObj → Bool
  | .nil => true
  | .cons _ _ .nil => true
  | .cons k _ (.cons k2 v2 t) => bytesLt k k2 && keysSorted (.cons k2 v2 t)

mutual
def pJson : Json → Bool
  | .null => true
  | .bool _ => true
  | .num n => n.natAbs ≤ 9007199254740992
  | .str s => asciiStr s
  | .arr a => pArr a
  | .obj o => pObj o

def pArr : JArr → Bool
  | .nil => true
  | .cons h t => pJson h && pArr t

def pObj : JObj → Bool
  | .nil => true
  | .cons k v t => asciiStr k && pJson v && pObj t
end

mutual
def sortedJson : Json → Bool
  | .arr a => sortedArr a
  | .obj o => keysSorted o && sortedObj o
  | _ => true

def sortedArr : JArr → Bool
  | .nil => true
  | .cons h t => sortedJson h && sortedArr t

def sortedObj : JObj → Bool
  | .nil => true
  | .cons _ v t => sortedJson v && sortedObj t
end

def wfHeader (h : MsgHeader) : Bool :=
  asciiStr h.Msg_id && asciiStr h.Username && asciiStr h.Session &&
    asciiStr h.Msg_type

/-- A valid message: both headers ASCII; metadata a present (non-nil)
map in canonical form; content parse-safe and canonical. -/
def ComposedMsg.wf (msg : ComposedMsg) : Bool :=
  wfHeader msg.Header && wfHeader msg.Parent_header &&
    (match msg.Metadata with
     | some o => pObj o && keysSorted o && sortedObj o
     | none => false) &&
    (pJson msg.Content && sortedJson msg.Content)

/-! ## Sizes (fuel accounting for the parser) -/

mutual
def jsize : Json → Nat
  | .null => 1
  | .bool _ => 1
  | .num _ => 1
  | .str _ => 1
  | .arr a => 1 + asize a
  | .obj o => 1 + osize o

def asize : JArr → Nat
  | .nil => 1
  | .cons h t => 1 + jsize h + asize t

def osize : JObj → Nat
  | .nil => 1
  | .cons _ v t => 1 + jsize v + osize t
end

/-- Does the input not begin with a decimal digit (so a greedy number
parse just before it stops exactly there)? -/
def notDigitHead : List Nat → Bool
  | [] => true
  | c :: _ => !isDigit c

/-! ## A heap model for the metadata map reference (for framing)

`ComposedMsg.Metadata` is a Go map, i.e. a reference into the heap.  To
state that `ToWireMsg` never mutates the caller's message we re-run the
same source lines over an explicit heap of map cells: `MetadataRef` is
the map reference (`none` = nil map), the heap a list of map contents,
and `make(map[string]interface{})` an allocation at the end of the
heap.  The method's receiver is a copy of the caller's struct (Go value
receiver), so the caller's own fields are the unchanged inputs; what
must be checked is that no pre-existing heap cell is written. -/

structure ComposedMsgH where
  Header : MsgHeader
  Parent_header : MsgHeader
  MetadataRef : Option Nat
  Content : Json
deriving DecidableEq

/-- Dereference a map cell. -/
def lookupMap (heap : List JObj) (r : Nat) : JObj := heap.getD r .nil

/-- The `ComposedMsg` value a heap-state message denotes. -/
def resolveH (heap : List JObj) (msg : ComposedMsgH) : ComposedMsg :=
  { Header := msg.Header
    Parent_header := msg.Parent_header
    Metadata := msg.MetadataRef.map (lookupMap heap)
    Content := msg.Content }

/-- `ToWireMsg` (lines 70-94) over the explicit heap: returns the five
frames, the heap after the call, and the method's local receiver at
return.  Line 76-78: a nil metadata reference makes the local copy point
at a freshly allocated empty map. -/
def ToWireMsgHeap (msg : ComposedMsgH) (heap : List JObj) (signkey : List Nat) :
    List (List Nat) × List JObj × ComposedMsgH :=
  let st :=
    match msg.MetadataRef with
    | none => ({ msg with MetadataRef := some heap.length }, heap ++ [JObj.nil])
    | some _ => (msg, heap)
  let localMsg := st.1
  let heap2 := st.2
  let header := marshalHeader localMsg.Header
  let parent_header := marshalHeader localMsg.Parent_header
  let metadata := marshalJson (.obj
    (match localMsg.MetadataRef with
     | some r => lookupMap heap2 r
     | none => .nil))
  let content := marshalJson localMsg.Content
  let sig :=
    if signkey.length ≠ 0 then
      hexEnc (hmacSha256 signkey (header ++ parent_header ++ metadata ++ content))
    else []
  ([sig, header, parent_header, metadata, content], heap2, localMsg)

/-- What a call allocates: one empty map cell when the metadata
reference was nil, nothing otherwise. -/
def allocOf : Option Nat → List JObj
  | none => [JObj.nil]
  | some _ => []

/-! ## Concrete instances (the spec §8 example and the tampered envelopes)

`msgC69` is the example message with content `{"code":"c69"}` and key
`"secret"`; its HMAC-SHA256 happens to end in the byte 0x00, which is
what the signature-tampering counterexamples exploit. -/

/-- Example header: msg_id "1", username "u", session "s",
msg_type "execute_request". -/
def hdrC : MsgHeader :=
  ⟨[49], [117], [115], [101, 120, 101, 99, 117, 116, 101, 95, 114, 101, 113, 117, 101, 115, 116]⟩

/-- The spec example message: empty parent header, metadata the empty
map, content the object with field "code" holding "1+1". -/
def msgC : ComposedMsg :=
  { Header := hdrC
    Parent_header := .zero
    Metadata := some .nil
    Content := .obj (.cons [99, 111, 100, 101] (.str [49, 43, 49]) .nil) }

/-- The key "secret". -/
def keyC : List Nat := [115, 101, 99, 114, 101, 116]

/-- Like `msgC` but content `{"code":"c69"}`: chosen so that the
HMAC-SHA256 of its four frames under `keyC` ends in the byte 0x00. -/
def msgC69 : ComposedMsg :=
  { Header := hdrC
    Parent_header := .zero
    Metadata := some .nil
    Content := .obj (.cons [99, 111, 100, 101] (.str [99, 54, 57]) .nil) }

/-- The `msgC69` envelope as received with no identities: delimiter then
the five signed frames. -/
def envC : List (List Nat) := delimFrame :: msgC69.ToWireMsg keyC

/-- `envC` with one bit (0x40) flipped in the last byte of the signature
frame: the hex digit 0 (0x30) becomes the non-hex letter p (0x70). -/
def envTampered : List (List Nat) :=
  envC.set 1 ((envC.getD 1 []).set 63 ((envC.getD 1 []).getD 63 0 ^^^ 64))

/-- `envC` with a different single bit (0x20) flipped in the same byte:
0x30 becomes the non-hex control byte 0x10. -/
def envC9 : List (List Nat) :=
  envC.set 1 ((envC.getD 1 []).set 63 ((envC.getD 1 []).getD 63 0 ^^^ 32))

/-- An envelope whose header frame is the lone byte 0x7b — truncated
JSON that fails to parse — with empty key and otherwise valid frames. -/
def badHeaderEnv : List (List Nat) :=
  [delimFrame, [], [123],
   marshalHeader .zero, [123, 125], marshalJson (.str [104, 105])]


/-! # Theorems -/

/-! ## The model reproduces the library test vectors -/

/-- FIPS test vector: SHA-256 of "abc". -/
theorem sha256_abc : sha256 [97, 98, 99] =
    [186, 120, 22, 191, 143, 1, 207, 234, 65, 65, 64, 222, 93, 174, 34, 35,
     176, 3, 97, 163, 150, 23, 122, 156, 180, 16, 255, 97, 242, 0, 21, 173] := by
  decide

/-- HMAC-SHA256 of message "msg" under key "key". -/
theorem hmac_key_msg : hmacSha256 [107, 101, 121] [109, 115, 103] =
    [45, 147, 203, 193, 190, 22, 123, 203, 22, 55, 164, 162, 60, 191, 240, 26,
     120, 120, 240, 197, 14, 232, 51, 149, 78, 165, 34, 27, 177, 184, 198, 40] := by
  decide

/-! ## encoding/hex -/

theorem fromHexChar_hexChar (x : Nat) (h : x < 16) :
    fromHexChar (hexChar x) = some x := by
  simp only [hexChar, fromHexChar]
  split_ifs <;> simp_all <;> omega

theorem hexPairs_hexEnc (l : List Nat) (h : ∀ b ∈ l, b < 256) :
    hexPairs (hexEnc l) = l := by
  induction l with
  | nil => rfl
  | cons b t ih =>
    have hb : b < 256 := h b (List.mem_cons_self b t)
    have h1 : b / 16 < 16 := by omega
    have h2 : b % 16 < 16 := by omega
    simp only [hexEnc, hexPairs, fromHexChar_hexChar _ h1, fromHexChar_hexChar _ h2]
    rw [ih fun x hx => h x (List.mem_cons_of_mem _ hx)]
    congr 1
    omega

theorem hexEnc_length (l : List Nat) : (hexEnc l).length = 2 * l.length := by
  induction l with
  | nil => rfl
  | cons b t ih => simp [hexEnc, ih]; omega

theorem hexDecodeBuf_hexEnc (l : List Nat) (h : ∀ b ∈ l, b < 256) :
    hexDecodeBuf (hexEnc l) = l := by
  simp [hexDecodeBuf, hexPairs_hexEnc l h, hexEnc_length]

/-! ## Digest bytes are bytes -/

theorem mem_wordToBytes_lt {w b : Nat} (h : b ∈ wordToBytes w) : b < 256 := by
  simp only [wordToBytes, List.mem_cons, List.not_mem_nil, or_false] at h
  rcases h with h | h | h | h <;> omega

theorem mem_wordsToBytes_lt {ws : List Nat} {b : Nat}
    (h : b ∈ wordsToBytes ws) : b < 256 := by
  induction ws with
  | nil => simp [wordsToBytes] at h
  | cons w t ih =>
    simp only [wordsToBytes, List.mem_append] at h
    rcases h with h | h
    · exact mem_wordToBytes_lt h
    · exact ih h

theorem mem_sha256_lt {m : List Nat} {b : Nat} (h : b ∈ sha256 m) : b < 256 :=
  mem_wordsToBytes_lt h

theorem mem_hmacSha256_lt {key msg : List Nat} {b : Nat}
    (h : b ∈ hmacSha256 key msg) : b < 256 :=
  mem_sha256_lt h

/-! ## Locating the delimiter -/

theorem splitAtDelim_append (I rest : List (List Nat)) (hI : delimFrame ∉ I) :
    splitAtDelim (I ++ delimFrame :: rest) = some (I, delimFrame :: rest) := by
  induction I with
  | nil => simp [splitAtDelim]
  | cons f t ih =>
    have hf : f ≠ delimFrame := fun h => hI (h ▸ List.mem_cons_self f t)
    have ht : delimFrame ∉ t := fun h => hI (List.mem_cons_of_mem _ h)
    simp [splitAtDelim, hf, ih ht]

theorem splitAtDelim_none (frames : List (List Nat)) (h : delimFrame ∉ frames) :
    splitAtDelim frames = none := by
  induction frames with
  | nil => rfl
  | cons f t ih =>
    have hf : f ≠ delimFrame := fun hh => h (hh ▸ List.mem_cons_self f t)
    have ht : delimFrame ∉ t := fun hh => h (List.mem_cons_of_mem _ hh)
    simp [splitAtDelim, hf, ih ht]

/-! ## Decimal digits -/

theorem digitsAux_stable (n : Nat) : ∀ f g, n < f → n < g →
    digitsAux f n = digitsAux g n := by
  induction n using Nat.strong_induction_on with
  | _ n ih =>
    intro f g hf hg
    match f, g with
    | f' + 1, g' + 1 =>
      by_cases h10 : n < 10
      · simp [digitsAux, h10]
      · have hd : n / 10 < n := Nat.div_lt_self (by omega) (by omega)
        simp only [digitsAux, h10, if_false]
        rw [ih (n / 10) hd f' g' (by omega) (by omega)]

theorem digitsOf_eq (n : Nat) :
    digitsOf n = if n < 10 then [48 + n] else digitsOf (n / 10) ++ [48 + n % 10] := by
  by_cases h10 : n < 10
  · simp [digitsOf, digitsAux, h10]
  · have h1 : digitsOf n = digitsAux n (n / 10) ++ [48 + n % 10] := by
      show digitsAux (n + 1) n = _
      rw [show digitsAux (n + 1) n =
        if n < 10 then [48 + n] else digitsAux n (n / 10) ++ [48 + n % 10] from rfl]
      simp [h10]
    rw [h1, digitsAux_stable (n / 10) n (n / 10 + 1) (by omega) (by omega),
      if_neg h10]
    rfl

theorem digitsOf_digits (n : Nat) : ∀ d ∈ digitsOf n, isDigit d = true := by
  induction n using Nat.strong_induction_on with
  | _ n ih =>
    intro d hd
    rw [digitsOf_eq] at hd
    by_cases h10 : n < 10
    · simp [h10] at hd
      simp [isDigit, hd]; omega
    · simp only [h10, if_false, List.mem_append, List.mem_cons,
        List.not_mem_nil, or_false] at hd
      rcases hd with hd | hd
      · exact ih (n / 10) (Nat.div_lt_self (by omega) (by omega)) d hd
      · simp [isDigit, hd]; omega

theorem digitsOf_ne_nil (n : Nat) : digitsOf n ≠ [] := by
  rw [digitsOf_eq]
  split_ifs <;> simp

theorem parseDigitsAux_digits (ds : List Nat) :
    ∀ rest acc, (∀ d ∈ ds, isDigit d = true) → notDigitHead rest = true →
    parseDigitsAux (ds ++ rest) acc =
      (ds.foldl (fun a d => 10 * a + (d - 48)) acc, rest) := by
  induction ds with
  | nil =>
    intro rest acc _ hr
    match rest with
    | [] => rfl
    | c :: r =>
      simp only [notDigitHead, Bool.not_eq_true'] at hr
      simp [parseDigitsAux, hr]
  | cons d t ih =>
    intro rest acc hd hr
    have h1 : isDigit d = true := hd d (List.mem_cons_self d t)
    simp only [List.cons_append, parseDigitsAux, h1, if_true, List.foldl_cons]
    exact ih rest _ (fun x hx => hd x (List.mem_cons_of_mem _ hx)) hr

theorem foldl_digitsOf (n : Nat) : ∀ acc,
    (digitsOf n).foldl (fun a d => 10 * a + (d - 48)) acc =
      acc * 10 ^ (digitsOf n).length + n := by
  induction n using Nat.strong_induction_on with
  | _ n ih =>
    intro acc
    rw [digitsOf_eq]
    by_cases h10 : n < 10
    · rw [if_pos h10]
      simp only [List.foldl_cons, List.foldl_nil, List.length_cons,
        List.length_nil, Nat.zero_add, pow_one]
      omega
    · have hd : n / 10 < n := Nat.div_lt_self (by omega) (by omega)
      simp only [h10, if_false, List.foldl_append, List.foldl_cons,
        List.foldl_nil, List.length_append, List.length_cons, List.length_nil]
      rw [ih (n / 10) hd acc]
      rw [show (digitsOf (n / 10)).length + (0 + 1) =
        (digitsOf (n / 10)).length + 1 from rfl, pow_succ]
      have h2 : acc * (10 ^ (digitsOf (n / 10)).length * 10) =
          acc * 10 ^ (digitsOf (n / 10)).length * 10 := by ring
      rw [h2]
      set M := acc * 10 ^ (digitsOf (n / 10)).length
      omega

theorem parseDigitsAux_digitsOf (n : Nat) (rest : List Nat)
    (hr : notDigitHead rest = true) :
    parseDigitsAux (digitsOf n ++ rest) 0 = (n, rest) := by
  rw [parseDigitsAux_digits (digitsOf n) rest 0 (digitsOf_digits n) hr,
    foldl_digitsOf n 0]
  simp

/-! ## String escaping round trip -/

theorem skipWs_cons (c : Nat) (r : List Nat) (h : isWs c = false) :
    skipWs (c :: r) = c :: r := by
  simp [skipWs, h]

theorem parseStrBody_escBytes (s : List Nat) : ∀ rest, (∀ b ∈ s, b < 128) →
    parseStrBody (escBytes s ++ 34 :: rest) = some (s, rest) := by
  induction s with
  | nil =>
    intro rest _
    rw [show escBytes [] ++ 34 :: rest = 34 :: rest from by simp [escBytes],
      parseStrBody.eq_def]
    rfl
  | cons b t ih =>
    intro rest h
    have hb : b < 128 := h b (List.mem_cons_self b t)
    have ht : ∀ x ∈ t, x < 128 := fun x hx => h x (List.mem_cons_of_mem _ hx)
    have ihr := ih rest ht
    simp only [escBytes, List.append_assoc]
    by_cases h34 : b = 34
    · subst h34
      rw [parseStrBody.eq_def]
      simp [escByte, escDecode, ihr]
    · by_cases h92 : b = 92
      · subst h92
        rw [parseStrBody.eq_def]
        simp [escByte, escDecode, ihr]
      · by_cases h10 : b = 10
        · subst h10
          rw [parseStrBody.eq_def]
          simp [escByte, escDecode, ihr]
        · by_cases h13 : b = 13
          · subst h13
            rw [parseStrBody.eq_def]
            simp [escByte, escDecode, ihr]
          · by_cases h9 : b = 9
            · subst h9
              rw [parseStrBody.eq_def]
              simp [escByte, escDecode, ihr]
            · by_cases hu : b < 32 ∨ b = 38 ∨ b = 60 ∨ b = 62
              · have hb16 : b / 16 < 16 := by omega
                have hb16m : b % 16 < 16 := by omega
                have hesc : escByte b =
                    [92, 117, 48, 48, hexChar (b / 16), hexChar (b % 16)] := by
                  simp [escByte, h34, h92, h10, h13, h9, hu]
                rw [hesc, parseStrBody.eq_def]
                simp only [List.cons_append, List.nil_append]
                simp only [fromHexChar_hexChar _ hb16, fromHexChar_hexChar _ hb16m,
                  show fromHexChar 48 = some 0 from rfl, ihr]
                have hv : 4096 * 0 + 256 * 0 + 16 * (b / 16) + b % 16 = b := by omega
                have hv2 : 16 * (b / 16) + b % 16 = b := by omega
                simp [hv, hv2, utf8enc, hb]
              · have hlit : escByte b = [b] := by
                  simp [escByte, h34, h92, h10, h13, h9, hu]
                have hnlt : ¬b < 32 := by omega
                rw [hlit, List.singleton_append, parseStrBody.eq_def]
                simp [h34, h92, hnlt, ihr]

/-! ## Sizes bound serialized lengths -/

theorem jsize_pos (j : Json) : 1 ≤ jsize j := by
  cases j <;> simp [jsize]

theorem asize_pos (a : JArr) : 1 ≤ asize a := by
  cases a <;> simp [asize] <;> omega

theorem osize_pos (o : JObj) : 1 ≤ osize o := by
  cases o <;> simp [osize] <;> omega

theorem digitsOf_length_pos (n : Nat) : 1 ≤ (digitsOf n).length :=
  List.length_pos.mpr (digitsOf_ne_nil n)

theorem marshalInt_length_pos (n : Int) : 1 ≤ (marshalInt n).length := by
  simp only [marshalInt]
  split_ifs
  · simp
  · exact digitsOf_length_pos _

mutual
theorem jsize_le_len : ∀ j : Json, jsize j ≤ 2 * (marshalJson j).length
  | .null => by simp [jsize, marshalJson]
  | .bool b => by cases b <;> simp [jsize, marshalJson]
  | .num n => by
      have h := marshalInt_length_pos n
      simp only [jsize, marshalJson]
      omega
  | .str s => by
      simp only [jsize, marshalJson, marshalStr]
      simp only [List.length_cons, List.length_append, List.length_nil]
      omega
  | .arr a => by
      have h := asize_le_len a
      simp only [jsize, marshalJson, List.length_cons, List.length_append]
      simp only [List.length_cons, List.length_nil]
      omega
  | .obj o => by
      have h := osize_le_len o
      simp only [jsize, marshalJson, List.length_cons, List.length_append]
      simp only [List.length_cons, List.length_nil]
      omega

theorem asize_le_len : ∀ a : JArr, asize a ≤ 2 * (marshalElems a).length + 2
  | .nil => by simp [asize, marshalElems]
  | .cons h .nil => by
      have h1 := jsize_le_len h
      simp only [asize, marshalElems, osize]
      have h2 := asize_pos JArr.nil
      simp only [asize] at h2
      omega
  | .cons h (.cons h2 t) => by
      have h1 := jsize_le_len h
      have h3 := asize_le_len (.cons h2 t)
      simp only [asize] at h3 ⊢
      simp only [marshalElems, List.length_append, List.length_cons]
      omega

theorem osize_le_len : ∀ o : JObj, osize o ≤ 2 * (marshalMembers o).length + 2
  | .nil => by simp [osize, marshalMembers]
  | .cons k v .nil => by
      have h1 := jsize_le_len v
      simp only [osize, marshalMembers, marshalStr, List.length_append,
        List.length_cons]
      omega
  | .cons k v (.cons k2 v2 t) => by
      have h1 := jsize_le_len v
      have h3 := osize_le_len (.cons k2 v2 t)
      simp only [osize] at h3 ⊢
      simp only [marshalMembers, marshalStr, List.length_append, List.length_cons]
      omega
end


/-! ## Heads of serialized values -/

theorem marshalJson_head (j : Json) :
    ∃ c t, marshalJson j = c :: t ∧ isWs c = false ∧ c ≠ 93 ∧ c ≠ 125 := by
  cases j with
  | null => exact ⟨110, _, rfl, by decide, by decide, by decide⟩
  | bool b =>
    cases b with
    | false => exact ⟨102, _, rfl, by decide, by decide, by decide⟩
    | true => exact ⟨116, _, rfl, by decide, by decide, by decide⟩
  | num n =>
    by_cases hn : n < 0
    · refine ⟨45, digitsOf n.natAbs, ?_, by decide, by decide, by decide⟩
      simp [marshalJson, marshalInt, hn]
    · obtain ⟨d, ds, hd⟩ : ∃ d ds, digitsOf n.toNat = d :: ds := by
        cases hds : digitsOf n.toNat with
        | nil => exact absurd hds (digitsOf_ne_nil _)
        | cons d ds => exact ⟨d, ds, rfl⟩
      have hdig : isDigit d = true := digitsOf_digits _ d (by rw [hd]; exact List.mem_cons_self _ _)
      have hb : 48 ≤ d ∧ d ≤ 57 := by simpa [isDigit] using hdig
      refine ⟨d, ds, ?_, ?_, ?_, ?_⟩
      · simp [marshalJson, marshalInt, hn, hd]
      · simp [isWs]; omega
      · omega
      · omega
  | str s => exact ⟨34, _, rfl, by decide, by decide, by decide⟩
  | arr a => exact ⟨91, _, rfl, by decide, by decide, by decide⟩
  | obj o => exact ⟨123, _, rfl, by decide, by decide, by decide⟩

theorem marshalElems_cons_head (h : Json) (t : JArr) :
    ∃ c tl, marshalElems (.cons h t) = c :: tl ∧ isWs c = false ∧ c ≠ 93 := by
  obtain ⟨c, tl, hm, hws, h93, _⟩ := marshalJson_head h
  cases t with
  | nil => exact ⟨c, tl, by rw [show marshalElems (.cons h .nil) = marshalJson h from rfl, hm],
      hws, h93⟩
  | cons h2 t2 =>
    refine ⟨c, tl ++ 44 :: marshalElems (.cons h2 t2), ?_, hws, h93⟩
    rw [show marshalElems (.cons h (.cons h2 t2)) =
      marshalJson h ++ 44 :: marshalElems (.cons h2 t2) from rfl, hm]
    simp


/-! ## The parser inverts the serializer -/

theorem parse_marshal_inv : ∀ f : Nat,
    (∀ (j : Json) (r : List Nat), pJson j = true → jsize j ≤ f →
      notDigitHead r = true → parseVal f (marshalJson j ++ r) = some (j, r)) ∧
    (∀ (h : Json) (t : JArr) (r : List Nat), pJson h = true → pArr t = true →
      asize (.cons h t) ≤ f →
      parseElems f (marshalElems (.cons h t) ++ 93 :: r) = some (.cons h t, r)) ∧
    (∀ (k : List Nat) (v : Json) (t : JObj) (r : List Nat), asciiStr k = true →
      pJson v = true → pObj t = true → osize (.cons k v t) ≤ f →
      parseMembers f (marshalMembers (.cons k v t) ++ 125 :: r) =
        some (.cons k v t, r)) := by
  intro f
  induction f with
  | zero =>
    refine ⟨?_, ?_, ?_⟩
    · intro j r _ hsz _
      exact absurd hsz (by have := jsize_pos j; omega)
    · intro h t r _ _ hsz
      exact absurd hsz (by have := asize_pos (.cons h t); omega)
    · intro k v t r _ _ _ hsz
      exact absurd hsz (by have := osize_pos (.cons k v t); omega)
  | succ f ih =>
    obtain ⟨ihP, ihQ, ihR⟩ := ih
    refine ⟨?_, ?_, ?_⟩
    · -- parseVal
      intro j r hpj hsz hnd
      cases j with
      | null =>
        rw [show marshalJson .null = [110, 117, 108, 108] from rfl, parseVal.eq_def]
        simp [skipWs, isWs, expectBytes]
      | bool b =>
        cases b with
        | true =>
          rw [show marshalJson (.bool true) = [116, 114, 117, 101] from rfl,
            parseVal.eq_def]
          simp [skipWs, isWs, expectBytes]
        | false =>
          rw [show marshalJson (.bool false) = [102, 97, 108, 115, 101] from rfl,
            parseVal.eq_def]
          simp [skipWs, isWs, expectBytes]
      | str s =>
        have hs : asciiStr s = true := by simpa [pJson] using hpj
        have hs' : ∀ b ∈ s, b < 128 := by
          intro b hb
          have := (List.all_eq_true.mp hs) b hb
          simpa using this
        rw [show marshalJson (.str s) = marshalStr s from rfl, marshalStr,
          parseVal.eq_def]
        simp only [List.cons_append, List.append_assoc]
        rw [skipWs_cons _ _ (by decide)]
        simp only [List.cons_append]
        simp [parseStrBody_escBytes s r hs']
      | num n =>
        rw [show marshalJson (.num n) = marshalInt n from rfl]
        by_cases hn : n < 0
        · rw [show marshalInt n = 45 :: digitsOf n.natAbs from by simp [marshalInt, hn]]
          obtain ⟨d, ds, hds⟩ : ∃ d ds, digitsOf n.natAbs = d :: ds := by
            cases hds : digitsOf n.natAbs with
            | nil => exact absurd hds (digitsOf_ne_nil _)
            | cons d ds => exact ⟨d, ds, rfl⟩
          have hdig : isDigit d = true :=
            digitsOf_digits _ d (by rw [hds]; exact List.mem_cons_self _ _)
          rw [parseVal.eq_def]
          simp only [List.cons_append]
          rw [skipWs_cons _ _ (by decide)]
          rw [hds]
          simp only [List.cons_append]
          simp only [show ((45:Nat) = 110) = False by simp,
            show ((45:Nat) = 116) = False by simp,
            show ((45:Nat) = 102) = False by simp,
            show ((45:Nat) = 34) = False by simp,
            show ((45:Nat) = 45) = True by simp, if_false, if_true, hdig]
          rw [show (d :: (ds ++ r)) = (d :: ds) ++ r from rfl, ← hds,
            parseDigitsAux_digitsOf _ _ hnd]
          have hv : -((n.natAbs : Int)) = n := by omega
          show some (Json.num (-((n.natAbs : Int))), r) = some (Json.num n, r)
          rw [hv]
        · rw [show marshalInt n = digitsOf n.toNat from by simp [marshalInt, hn]]
          obtain ⟨d, ds, hds⟩ : ∃ d ds, digitsOf n.toNat = d :: ds := by
            cases hds : digitsOf n.toNat with
            | nil => exact absurd hds (digitsOf_ne_nil _)
            | cons d ds => exact ⟨d, ds, rfl⟩
          have hdig : isDigit d = true :=
            digitsOf_digits _ d (by rw [hds]; exact List.mem_cons_self _ _)
          have hdb : 48 ≤ d ∧ d ≤ 57 := by simpa [isDigit] using hdig
          rw [parseVal.eq_def]
          rw [hds]
          simp only [List.cons_append]
          rw [skipWs_cons _ _ (by simp [isWs]; omega)]
          simp only [eq_false (show ¬(d = 110) by omega),
            eq_false (show ¬(d = 116) by omega),
            eq_false (show ¬(d = 102) by omega),
            eq_false (show ¬(d = 34) by omega),
            eq_false (show ¬(d = 45) by omega), if_false, hdig]
          rw [show (d :: (ds ++ r)) = (d :: ds) ++ r from rfl, ← hds,
            parseDigitsAux_digitsOf _ _ hnd]
          have hv : ((n.toNat : Int)) = n := by omega
          show some (Json.num ((n.toNat : Int)), r) = some (Json.num n, r)
          rw [hv]
      | arr a =>
        rw [show marshalJson (.arr a) = 91 :: (marshalElems a ++ [93]) from rfl,
          parseVal.eq_def]
        simp only [List.cons_append, List.append_assoc, List.nil_append]
        rw [skipWs_cons _ _ (by decide)]
        simp only [show ((91:Nat) = 110) = False by simp,
          show ((91:Nat) = 116) = False by simp,
          show ((91:Nat) = 102) = False by simp,
          show ((91:Nat) = 34) = False by simp,
          show ((91:Nat) = 45) = False by simp,
          show isDigit 91 = false from rfl,
          show ((91:Nat) = 91) = True by simp,
          if_false, if_true, Bool.false_eq_true]
        cases a with
        | nil =>
          rw [show marshalElems .nil = [] from rfl]
          simp [skipWs, isWs, isDigit]
        | cons h t =>
          obtain ⟨c, tl, hm, hws, h93⟩ := marshalElems_cons_head h t
          have hpa : pJson h = true ∧ pArr t = true := by
            simpa [pJson, pArr] using hpj
          have hsz' : asize (.cons h t) ≤ f := by
            simp only [jsize] at hsz
            omega
          rw [hm]
          simp only [List.cons_append]
          rw [skipWs_cons _ _ hws]
          simp only [eq_false h93, if_false]
          rw [show (c :: (tl ++ 93 :: r)) = (c :: tl) ++ 93 :: r from rfl, ← hm,
            ihQ h t r hpa.1 hpa.2 hsz']
      | obj o =>
        rw [show marshalJson (.obj o) = 123 :: (marshalMembers o ++ [125]) from rfl,
          parseVal.eq_def]
        simp only [List.cons_append, List.append_assoc, List.nil_append]
        rw [skipWs_cons _ _ (by decide)]
        simp only [show ((123:Nat) = 110) = False by simp,
          show ((123:Nat) = 116) = False by simp,
          show ((123:Nat) = 102) = False by simp,
          show ((123:Nat) = 34) = False by simp,
          show ((123:Nat) = 45) = False by simp,
          show isDigit 123 = false from rfl,
          show ((123:Nat) = 91) = False by simp,
          show ((123:Nat) = 123) = True by simp,
          if_false, if_true, Bool.false_eq_true]
        cases o with
        | nil =>
          rw [show marshalMembers .nil = [] from rfl]
          simp [skipWs, isWs, isDigit]
        | cons k v t =>
          have hpo : (asciiStr k = true ∧ pJson v = true) ∧ pObj t = true := by
            simpa [pJson, pObj] using hpj
          have hsz' : osize (.cons k v t) ≤ f := by
            simp only [jsize] at hsz
            omega
          obtain ⟨tl, hm⟩ : ∃ tl, marshalMembers (.cons k v t) = 34 :: tl := by
            cases t with
            | nil =>
              refine ⟨escBytes k ++ [34] ++ 58 :: marshalJson v, ?_⟩
              rw [show marshalMembers (.cons k v .nil) =
                marshalStr k ++ 58 :: marshalJson v from rfl]
              simp [marshalStr]
            | cons k2 v2 t2 =>
              refine ⟨escBytes k ++ [34] ++ 58 :: marshalJson v ++
                44 :: marshalMembers (.cons k2 v2 t2), ?_⟩
              rw [show marshalMembers (.cons k v (.cons k2 v2 t2)) =
                marshalStr k ++ 58 :: marshalJson v ++
                  44 :: marshalMembers (.cons k2 v2 t2) from rfl]
              simp [marshalStr]
          rw [hm]
          simp only [List.cons_append]
          rw [skipWs_cons _ _ (by decide)]
          simp only [show ((34:Nat) = 125) = False by simp, if_false]
          rw [show (34 :: (tl ++ 125 :: r)) = (34 :: tl) ++ 125 :: r from rfl, ← hm,
            ihR k v t r hpo.1.1 hpo.1.2 hpo.2 hsz']
    · -- parseElems
      intro h t r hph hpt hsz
      cases t with
      | nil =>
        have hszh : jsize h ≤ f := by
          simp only [asize] at hsz
          have := asize_pos JArr.nil
          omega
        have h1 := ihP h (93 :: r) hph hszh (by simp [notDigitHead, isDigit])
        rw [show marshalElems (.cons h .nil) = marshalJson h from rfl,
          parseElems.eq_def]
        simp [h1, skipWs, isWs]
      | cons h2 t2 =>
        rw [show marshalElems (.cons h (.cons h2 t2)) ++ 93 :: r =
          marshalJson h ++ (44 :: (marshalElems (.cons h2 t2) ++ 93 :: r)) from by
            rw [show marshalElems (.cons h (.cons h2 t2)) =
              marshalJson h ++ 44 :: marshalElems (.cons h2 t2) from rfl]
            simp]
        rw [parseElems.eq_def]
        have hpa2 : pJson h2 = true ∧ pArr t2 = true := by
          simpa [pArr] using hpt
        have hszh : jsize h ≤ f := by
          simp only [asize] at hsz
          have := asize_pos t2
          have := jsize_pos h2
          omega
        have hszt : asize (.cons h2 t2) ≤ f := by
          simp only [asize] at hsz ⊢
          have := jsize_pos h
          omega
        have h1 := ihP h (44 :: (marshalElems (.cons h2 t2) ++ 93 :: r)) hph hszh
          (by simp [notDigitHead, isDigit])
        have h2q := ihQ h2 t2 r hpa2.1 hpa2.2 hszt
        simp [h1, h2q, skipWs, isWs]
    · -- parseMembers
      intro k v t r hak hpv hpt hsz
      have hk' : ∀ b ∈ k, b < 128 := by
        intro b hb
        have := (List.all_eq_true.mp hak) b hb
        simpa using this
      cases t with
      | nil =>
        rw [show marshalMembers (.cons k v .nil) ++ 125 :: r =
          34 :: (escBytes k ++ 34 :: (58 :: (marshalJson v ++ 125 :: r))) from by
            rw [show marshalMembers (.cons k v .nil) =
              marshalStr k ++ 58 :: marshalJson v from rfl]
            simp [marshalStr]]
        have hszv : jsize v ≤ f := by
          simp only [osize] at hsz
          have := osize_pos JObj.nil
          omega
        have h1 := ihP v (125 :: r) hpv hszv (by simp [notDigitHead, isDigit])
        have h2s := parseStrBody_escBytes k (58 :: (marshalJson v ++ 125 :: r)) hk'
        rw [parseMembers.eq_def]
        simp [h1, h2s, skipWs, isWs]
      | cons k2 v2 t2 =>
        rw [show marshalMembers (.cons k v (.cons k2 v2 t2)) ++ 125 :: r =
          34 :: (escBytes k ++ 34 :: (58 :: (marshalJson v ++
            44 :: (marshalMembers (.cons k2 v2 t2) ++ 125 :: r)))) from by
            rw [show marshalMembers (.cons k v (.cons k2 v2 t2)) =
              marshalStr k ++ 58 :: marshalJson v ++
                44 :: marshalMembers (.cons k2 v2 t2) from rfl]
            simp [marshalStr]]
        have hpo2 : (asciiStr k2 = true ∧ pJson v2 = true) ∧ pObj t2 = true := by
          simpa [pObj] using hpt
        have hszv : jsize v ≤ f := by
          simp only [osize] at hsz
          have := osize_pos t2
          have := jsize_pos v2
          omega
        have hszt : osize (.cons k2 v2 t2) ≤ f := by
          simp only [osize] at hsz ⊢
          have := jsize_pos v
          omega
        have h1 := ihP v (44 :: (marshalMembers (.cons k2 v2 t2) ++ 125 :: r)) hpv hszv
          (by simp [notDigitHead, isDigit])
        have h2s := parseStrBody_escBytes k
          (58 :: (marshalJson v ++ 44 :: (marshalMembers (.cons k2 v2 t2) ++ 125 :: r))) hk'
        have h3r := ihR k2 v2 t2 r hpo2.1.1 hpo2.1.2 hpo2.2 hszt
        rw [parseMembers.eq_def]
        simp [h1, h2s, h3r, skipWs, isWs]

/-! ## Unmarshaling inverts marshaling, frame by frame -/

theorem unmarshalJson_marshalJson (j : Json) (hp : pJson j = true) :
    unmarshalJson (marshalJson j) = some j := by
  have hfuel : jsize j ≤ 2 * (marshalJson j).length + 2 := by
    have := jsize_le_len j
    omega
  have h1 := (parse_marshal_inv (2 * (marshalJson j).length + 2)).1 j [] hp hfuel
    (by simp [notDigitHead])
  rw [List.append_nil] at h1
  simp [unmarshalJson, h1, skipWs]

theorem headerOfFields_headerJObj (h : MsgHeader) :
    headerOfFields .zero (headerJObj h) = h := by
  simp [headerJObj, headerOfFields, applyHeaderField, keyMsgId, keyUsername,
    keySession, keyMsgType, MsgHeader.zero]

theorem wfHeader_fields (h : MsgHeader) (hw : wfHeader h = true) :
    ((asciiStr h.Msg_id = true ∧ asciiStr h.Username = true) ∧
      asciiStr h.Session = true) ∧ asciiStr h.Msg_type = true := by
  simpa [wfHeader] using hw

theorem unmarshalHeaderFrame_marshalHeader (h : MsgHeader) (hw : wfHeader h = true) :
    unmarshalHeaderFrame (marshalHeader h) = h := by
  obtain ⟨⟨⟨h1, h2⟩, h3⟩, h4⟩ := wfHeader_fields h hw
  have hp : pJson (.obj (headerJObj h)) = true := by
    simp only [asciiStr] at h1 h2 h3 h4
    simp [pJson, pObj, headerJObj, keyMsgId, keyUsername,
      keySession, keyMsgType, asciiStr, h1, h2, h3, h4]
  rw [marshalHeader]
  simp [unmarshalHeaderFrame, unmarshalJson_marshalJson _ hp,
    headerOfFields_headerJObj h]

theorem unmarshalMetaFrame_marshalObj (o : JObj) (hp : pObj o = true) :
    unmarshalMetaFrame (marshalJson (.obj o)) = some o := by
  have hp' : pJson (.obj o) = true := by simpa [pJson] using hp
  simp [unmarshalMetaFrame, unmarshalJson_marshalJson _ hp']

theorem unmarshalContentFrame_marshalJson (c : Json) (hp : pJson c = true) :
    unmarshalContentFrame (marshalJson c) = c := by
  cases hc : unmarshalJson (marshalJson c) with
  | none => rw [unmarshalJson_marshalJson c hp] at hc; cases hc
  | some j =>
    rw [unmarshalJson_marshalJson c hp] at hc
    cases hc
    simp [unmarshalContentFrame, unmarshalJson_marshalJson c hp]

/-! ## Evaluating a full envelope -/

theorem decode_envelope (I rest : List (List Nat)) (s f2 f3 f4 f5 key : List Nat)
    (hI : delimFrame ∉ I) :
    WireMsgToComposedMsg (I ++ delimFrame :: s :: f2 :: f3 :: f4 :: f5 :: rest) key =
      if key.length ≠ 0 ∧ hmacSha256 key (f2 ++ f3 ++ f4 ++ f5) ≠ hexDecodeBuf s
      then .sigError else .ok (parseFrames f2 f3 f4 f5) I := by
  rw [WireMsgToComposedMsg.eq_def, splitAtDelim_append _ _ hI]

theorem getD_append_length (l : List JObj) (x d : JObj) :
    (l ++ [x]).getD l.length d = x := by
  induction l with
  | nil => rfl
  | cons a t ih => simpa [List.getD] using ih


/-! # The claims -/

/-- C1 (amended): for every valid message (ASCII strings, integer-exact
numbers, canonical key-sorted maps, metadata present), every key, and
every identity sequence none of whose frames equals the delimiter token,
decoding the encoded envelope with the identities prepended and the
delimiter inserted returns exactly the original message and identities. -/
theorem C1_decode_encode_roundTrip (msg : ComposedMsg) (key : List Nat)
    (I : List (List Nat)) (hw : msg.wf = true) (hI : delimFrame ∉ I) :
    WireMsgToComposedMsg (I ++ delimFrame :: msg.ToWireMsg key) key = .ok msg I := by
  obtain ⟨mh, mp, mm, mc⟩ := msg
  cases mm with
  | none => exact absurd hw (by simp [ComposedMsg.wf])
  | some o =>
    simp only [ComposedMsg.wf, Bool.and_eq_true] at hw
    obtain ⟨⟨⟨hw1, hw2⟩, ⟨hpo, _⟩, _⟩, hpc, _⟩ := hw
    simp only [ComposedMsg.ToWireMsg, Option.getD_some]
    by_cases hk : key = []
    · subst hk
      rw [if_neg (by simp)]
      rw [WireMsgToComposedMsg.eq_def, splitAtDelim_append _ _ hI]
      simp only [List.length_nil, ne_eq, not_true_eq_false, false_and, if_false,
        parseFrames]
      rw [unmarshalHeaderFrame_marshalHeader mh hw1,
        unmarshalHeaderFrame_marshalHeader mp hw2,
        unmarshalMetaFrame_marshalObj o hpo,
        unmarshalContentFrame_marshalJson mc hpc]
    · have hkl : key.length ≠ 0 := by
        cases key with
        | nil => exact absurd rfl hk
        | cons a t => simp
      rw [if_pos hkl]
      rw [WireMsgToComposedMsg.eq_def, splitAtDelim_append _ _ hI]
      simp only [parseFrames]
      rw [hexDecodeBuf_hexEnc _ (fun b hb => mem_hmacSha256_lt hb)]
      rw [if_neg (by simp)]
      rw [unmarshalHeaderFrame_marshalHeader mh hw1,
        unmarshalHeaderFrame_marshalHeader mp hw2,
        unmarshalMetaFrame_marshalObj o hpo,
        unmarshalContentFrame_marshalJson mc hpc]

/-- C1 counterexample: the claim as stated quantifies over every
identity sequence, but an identity frame equal to the delimiter token is
taken as the delimiter by the scan at line 43, so decoding returns the
empty identity sequence instead of I = [`<IDS|MSG>`]. -/
theorem C1_identity_delimiter_cex :
    msgC.wf = true ∧
      (WireMsgToComposedMsg ([delimFrame] ++ delimFrame ::
          ComposedMsg.ToWireMsg msgC []) []).idents ≠ some [delimFrame] := by
  constructor
  · decide
  · decide

/-- C1 witness: the spec example — identities ["A1"], key "secret". -/
theorem C1_decode_encode_roundTrip_witness :
    msgC.wf = true ∧ delimFrame ∉ [[65, 49]] ∧
      WireMsgToComposedMsg ([[65, 49]] ++ delimFrame ::
          ComposedMsg.ToWireMsg msgC keyC) keyC = .ok msgC [[65, 49]] :=
  ⟨by decide, by decide,
    C1_decode_encode_roundTrip msgC keyC [[65, 49]] (by decide) (by decide)⟩

/-- C2 (amended): with a non-empty key, whenever the buffer Go's
`hex.Decode` produces from the signature frame (decoded prefix plus zero
padding) differs from the HMAC-SHA256 of the four JSON frames, decode
returns `InvalidSignatureError`; no JSON is parsed and no message is
built on that path (lines 57-58 return before the unmarshal calls, with
`msg` still the zero value).  A bit flip generically causes such a
mismatch, but not always: see the counterexample. -/
theorem C2_sigError_on_mac_mismatch (key s f2 f3 f4 f5 : List Nat)
    (I rest : List (List Nat)) (hk : key ≠ []) (hI : delimFrame ∉ I)
    (hne : hmacSha256 key (f2 ++ f3 ++ f4 ++ f5) ≠ hexDecodeBuf s) :
    WireMsgToComposedMsg (I ++ delimFrame :: s :: f2 :: f3 :: f4 :: f5 :: rest) key =
      .sigError := by
  have hkl : key.length ≠ 0 := by
    cases key with
    | nil => exact absurd rfl hk
    | cons a t => simp
  rw [decode_envelope _ _ _ _ _ _ _ _ hI, if_pos (And.intro hkl hne)]


/-- C2 counterexample: flipping one bit (0x40) of the last signature
byte of a correctly signed envelope — the MAC of `msgC69` under
`"secret"` ends in 0x00, so the flip turns the final hex digit 0 into
the non-hex byte p — leaves the zero-padded decode of the signature
equal to the MAC.  Decode accepts the tampered envelope instead of
failing with `SignatureError`. -/
theorem C2_bitflip_accepted_cex :
    msgC69.wf = true ∧ envTampered ≠ envC ∧
      WireMsgToComposedMsg envTampered keyC = .ok msgC69 [] := by
  refine ⟨by decide, by decide, by decide⟩

/-- C2 witness: a mismatching signature frame is rejected. -/
theorem C2_sigError_on_mac_mismatch_witness :
    ([107] : List Nat) ≠ [] ∧ delimFrame ∉ ([] : List (List Nat)) ∧
      hmacSha256 [107] ([] ++ [] ++ [] ++ []) ≠ hexDecodeBuf [] ∧
      WireMsgToComposedMsg ([] ++ delimFrame :: [] :: [] :: [] :: [] :: [] :: ([] : List (List Nat))) [107] =
        .sigError :=
  ⟨by decide, by decide, by decide,
    C2_sigError_on_mac_mismatch [107] [] [] [] [] [] [] [] (by decide) (by decide)
      (by decide)⟩

/-- C3: when no frame equals the delimiter token, the scan loop at lines
43-45 indexes past the end of `msgparts` and the program panics — the
model result is `crash`, not a returned `MalformedEnvelope` error (no
such error exists in the source). -/
theorem C3_missing_delimiter_crash (frames : List (List Nat)) (key : List Nat)
    (h : delimFrame ∉ frames) : WireMsgToComposedMsg frames key = .crash := by
  rw [WireMsgToComposedMsg.eq_def, splitAtDelim_none frames h]


/-- C3 witness: the single frame "a". -/
theorem C3_missing_delimiter_crash_witness :
    delimFrame ∉ [[97]] ∧ WireMsgToComposedMsg [[97]] [] = .crash :=
  ⟨by decide, C3_missing_delimiter_crash [[97]] [] (by decide)⟩

/-- C4: with the delimiter present but fewer than five frames after it,
the slice `msgparts[i+2:i+6]` (line 52, non-empty key) or the index
`msgparts[i+2..i+5]` (lines 61-64, empty key) is out of range and the
program panics — `crash`, not a `MalformedEnvelope` error. -/
theorem C4_truncated_envelope_crash (I rest : List (List Nat)) (key : List Nat)
    (hI : delimFrame ∉ I) (hlen : rest.length < 5) :
    WireMsgToComposedMsg (I ++ delimFrame :: rest) key = .crash := by
  rw [WireMsgToComposedMsg.eq_def, splitAtDelim_append _ _ hI]
  rcases rest with _ | ⟨a, _ | ⟨b, _ | ⟨c, _ | ⟨d, _ | ⟨e, t⟩⟩⟩⟩⟩
  · rfl
  · rfl
  · rfl
  · rfl
  · rfl
  · simp only [List.length_cons] at hlen
    omega


/-- C4 witness: a lone delimiter frame, key "k". -/
theorem C4_truncated_envelope_crash_witness :
    delimFrame ∉ ([] : List (List Nat)) ∧ ([] : List (List Nat)).length < 5 ∧
      WireMsgToComposedMsg ([] ++ delimFrame :: []) [107] = .crash :=
  ⟨by decide, by decide, C4_truncated_envelope_crash [] [] [107] (by decide) (by decide)⟩

/-- C5: the header frame `\x7b` (a lone opening brace) fails to parse as
JSON, yet decode returns success — `err == nil` — with `Header` left at
its zero value, because lines 61-64 discard the `json.Unmarshal` errors.
The claim (and spec 4.2 step 4) requires a `MalformedEnvelope` error
naming the field instead. -/
theorem C5_json_error_silently_zero :
    unmarshalJson [123] = none ∧
      WireMsgToComposedMsg badHeaderEnv [] =
        .ok { Header := .zero, Parent_header := .zero, Metadata := some .nil,
              Content := .str [104, 105] } [] := by
  refine ⟨by decide, by decide⟩

/-- C6: with an empty key the signature check at lines 50-60 is skipped
entirely, so decode never returns `InvalidSignatureError` whatever the
signature frame holds; and encode leaves frame 0 at the zero value of
`make([][]byte, 5)` — the empty byte blob. -/
theorem C6_empty_key_trust_mode (frames : List (List Nat)) (msg : ComposedMsg) :
    WireMsgToComposedMsg frames [] ≠ .sigError ∧
      (ComposedMsg.ToWireMsg msg []).head? = some [] := by
  constructor
  · rw [WireMsgToComposedMsg.eq_def]
    cases h : splitAtDelim frames with
    | none => simp
    | some pr =>
      obtain ⟨ids, rest⟩ := pr
      rcases rest with _ | ⟨a, _ | ⟨b, _ | ⟨c, _ | ⟨d, _ | ⟨e, _ | ⟨f, t⟩⟩⟩⟩⟩⟩ <;> simp
  · simp [ComposedMsg.ToWireMsg]


/-- C7: `NewMsg(t, parent)` copies the parent header into
`parent_header` (a full struct copy — `MsgHeader` has only string
fields), propagates session and username, sets the message type, and
gives the new header the freshly drawn identifier `u`; whenever the
drawn identifier differs from the parent's (which the 128-bit random
draw guarantees up to negligible collision probability), the two message
ids differ. -/
theorem C7_NewMsg_correlation (t : List Nat) (p : ComposedMsg) (u : List Nat)
    (h : u ≠ p.Header.Msg_id) :
    (NewMsg t p u).Parent_header = p.Header ∧
      (NewMsg t p u).Header.Session = p.Header.Session ∧
      (NewMsg t p u).Header.Username = p.Header.Username ∧
      (NewMsg t p u).Header.Msg_type = t ∧
      (NewMsg t p u).Header.Msg_id = u ∧
      (NewMsg t p u).Header.Msg_id ≠ p.Header.Msg_id := by
  refine ⟨rfl, rfl, rfl, rfl, rfl, h⟩


/-- C7 witness. -/
theorem C7_NewMsg_correlation_witness :
    ([117, 117] : List Nat) ≠ msgC.Header.Msg_id ∧
      ((NewMsg [101] msgC [117, 117]).Parent_header = msgC.Header ∧
        (NewMsg [101] msgC [117, 117]).Header.Session = msgC.Header.Session ∧
        (NewMsg [101] msgC [117, 117]).Header.Username = msgC.Header.Username ∧
        (NewMsg [101] msgC [117, 117]).Header.Msg_type = [101] ∧
        (NewMsg [101] msgC [117, 117]).Header.Msg_id = [117, 117] ∧
        (NewMsg [101] msgC [117, 117]).Header.Msg_id ≠ msgC.Header.Msg_id) :=
  ⟨by decide, C7_NewMsg_correlation [101] msgC [117, 117] (by decide)⟩

/-- C8: with the metadata map nil or empty, lines 76-79 marshal a fresh
empty map, so frame 3 is exactly the two bytes `\x7b\x7d` — the literal
empty JSON object, never `null`. -/
theorem C8_default_metadata (msg : ComposedMsg) (key : List Nat)
    (h : msg.Metadata = none ∨ msg.Metadata = some .nil) :
    (ComposedMsg.ToWireMsg msg key).getD 3 [] = [123, 125] := by
  rcases h with h | h <;> simp [ComposedMsg.ToWireMsg, h] <;> rfl


/-- C8 witness. -/
theorem C8_default_metadata_witness :
    (msgC.Metadata = none ∨ msgC.Metadata = some .nil) ∧
      (ComposedMsg.ToWireMsg msgC keyC).getD 3 [] = [123, 125] :=
  ⟨by decide, C8_default_metadata msgC keyC (by decide)⟩

/-- C9 (amended): with a non-empty key and a signature frame that is not
valid hex, decode never crashes — the discarded `hex.Decode` error
leaves a zero-padded buffer — and it returns `InvalidSignatureError`
exactly when that buffer differs from the computed MAC.  (The claim's
stronger form, that a hex-decode failure always yields `SignatureError`,
fails: see the counterexample.) -/
theorem C9_hex_failure_no_crash (key s f2 f3 f4 f5 : List Nat)
    (I rest : List (List Nat)) (hk : key ≠ []) (hI : delimFrame ∉ I)
    (hhex : hexValid s = false) :
    WireMsgToComposedMsg (I ++ delimFrame :: s :: f2 :: f3 :: f4 :: f5 :: rest) key ≠
        .crash ∧
      (WireMsgToComposedMsg (I ++ delimFrame :: s :: f2 :: f3 :: f4 :: f5 :: rest) key =
          .sigError ↔
        hmacSha256 key (f2 ++ f3 ++ f4 ++ f5) ≠ hexDecodeBuf s) := by
  have hkl : key.length ≠ 0 := by
    cases key with
    | nil => exact absurd rfl hk
    | cons a t => simp
  rw [decode_envelope _ _ _ _ _ _ _ _ hI]
  by_cases hne : hmacSha256 key (f2 ++ f3 ++ f4 ++ f5) = hexDecodeBuf s
  · rw [if_neg (by simp [← List.append_assoc, hne])]
    exact ⟨by simp, ⟨fun h => by simp at h, fun h => absurd hne h⟩⟩
  · rw [if_pos (And.intro hkl hne)]
    exact ⟨by simp, ⟨fun _ => hne, fun _ => rfl⟩⟩


/-- C9 counterexample: a signature frame that fails hex decoding (its
last byte is the control byte 0x10, one bit away from the hex digit 0)
on which decode nevertheless succeeds, because the valid prefix plus
zero padding happens to equal the MAC — so a hex-decode failure is not
always a verification failure. -/
theorem C9_hex_failure_cex :
    hexValid (envC9.getD 1 []) = false ∧
      WireMsgToComposedMsg envC9 keyC = .ok msgC69 [] := by
  refine ⟨by decide, by decide⟩

/-- C9 witness: an odd-length non-hex signature frame is rejected
without crashing. -/
theorem C9_hex_failure_no_crash_witness :
    ([107] : List Nat) ≠ [] ∧ delimFrame ∉ ([] : List (List Nat)) ∧
      hexValid [112] = false ∧
      WireMsgToComposedMsg ([] ++ delimFrame :: [112] :: [] :: [] :: [] :: [] :: ([] : List (List Nat))) [107] ≠
          .crash ∧
      (WireMsgToComposedMsg ([] ++ delimFrame :: [112] :: [] :: [] :: [] :: [] :: ([] : List (List Nat))) [107] =
          .sigError ↔
        hmacSha256 [107] ([] ++ [] ++ [] ++ []) ≠ hexDecodeBuf [112]) :=
  ⟨by decide, by decide, by decide,
    (C9_hex_failure_no_crash [107] [112] [] [] [] [] [] [] (by decide) (by decide)
      (by decide)).1,
    (C9_hex_failure_no_crash [107] [112] [] [] [] [] [] [] (by decide) (by decide)
      (by decide)).2⟩

/-- C10: re-running `ToWireMsg` over an explicit heap of map cells shows
encoding writes no existing heap cell: the frames equal the pure
encoding of the resolved message, the heap is only extended by the one
fresh empty map allocated when the metadata reference is nil (so the
caller's nil reference stays nil even though the emitted frame is the
empty object), and every pre-existing cell is untouched. -/
theorem C10_encode_no_mutation (msg : ComposedMsgH) (heap : List JObj)
    (key : List Nat) :
    (ToWireMsgHeap msg heap key).1 =
        ComposedMsg.ToWireMsg (resolveH heap msg) key ∧
      (ToWireMsgHeap msg heap key).2.1 = heap ++ allocOf msg.MetadataRef ∧
      ((ToWireMsgHeap msg heap key).2.1).take heap.length = heap := by
  obtain ⟨mh, mp, mref, mc⟩ := msg
  cases mref with
  | none =>
    refine ⟨?_, ?_, ?_⟩
    · simp [ToWireMsgHeap, resolveH, ComposedMsg.ToWireMsg, lookupMap,
        getD_append_length]
    · simp [ToWireMsgHeap, allocOf]
    · simp [ToWireMsgHeap, List.take_left]
  | some r =>
    refine ⟨?_, ?_, ?_⟩
    · simp [ToWireMsgHeap, resolveH, ComposedMsg.ToWireMsg, lookupMap]
    · simp [ToWireMsgHeap, allocOf]
    · simp [ToWireMsgHeap, List.take_left]
